import Mathlib

set_option maxHeartbeats 1000000
set_option maxRecDepth 100000

/- Verification of the GC-log analysis core of this repository:
   scripts/parse_gc_logs.py, scripts/analyze_high_memory_scenarios.py and
   quick_analysis.py.  Machine floats are modelled as exact rationals,
   Python float('inf') as the top element of WithTop ℚ, and a float()
   call that raises ValueError as an explicit error value.  The three
   regular expressions of the parser are embedded by a small ordered
   backtracking matcher whose candidate order is the one the Python re
   engine uses (leftmost start wins; within a start, greedy quantifiers
   offer longest first, lazy ones shortest first). -/

/-- Python regex class \s on the characters that occur in GC logs -/
def wsChar (c : Char) : Bool :=
  c == ' ' || c == '\t' || c == '\n' || c == '\r' || c == '\x0b' || c == '\x0c'

/-- character class [\d.] used by the pause and uptime captures -/
def ddChar (c : Char) : Bool := c.isDigit || c == '.'

/-- character class [0-9:.+-] of the timestamp body -/
def tsChar (c : Char) : Bool :=
  c.isDigit || c == ':' || c == '.' || c == '+' || c == '-'

/-- length of the maximal prefix of cs whose characters satisfy p -/
def maxRun (p : Char → Bool) : List Char → Nat
  | [] => 0
  | c :: cs => if p c then maxRun p cs + 1 else 0

/-- greedy star over a character class: the candidate (consumed, rest)
    splits in the order a backtracking engine tries them, longest first -/
def greedyStar (p : Char → Bool) (cs : List Char) : List (List Char × List Char) :=
  ((List.range (maxRun p cs + 1)).reverse).map fun k => (cs.take k, cs.drop k)

/-- lazy star over a character class: candidate splits, shortest first -/
def lazyStar (p : Char → Bool) (cs : List Char) : List (List Char × List Char) :=
  (List.range (maxRun p cs + 1)).map fun k => (cs.take k, cs.drop k)

/-- greedy plus over a character class: candidate splits, longest first -/
def greedyPlus (p : Char → Bool) (cs : List Char) : List (List Char × List Char) :=
  ((List.range (maxRun p cs)).reverse).map fun k => (cs.take (k + 1), cs.drop (k + 1))

/-- literal piece of a pattern -/
def litP (pat cs : List Char) : List (List Char × List Char) :=
  if pat.isPrefixOf cs then [(pat, cs.drop pat.length)] else []

/-- an exactly-n repetition of a character class -/
def repP (p : Char → Bool) (n : Nat) (cs : List Char) : List (List Char × List Char) :=
  if n ≤ maxRun p cs then [(cs.take n, cs.drop n)] else []

def pauseLit : List Char := "Pause".toList
def msLit : List Char := "ms".toList
def sLit : List Char := "s".toList
def colonLit : List Char := [':']
def dashLit : List Char := ['-']
def tLit : List Char := ['T']

/-- tail of the two pause patterns after the colon, \s*([\d.]+)\s* then the
    unit literal; the ordered list of candidate captures -/
def numUnit (unit cs : List Char) : List (List Char) :=
  (greedyStar wsChar cs).flatMap fun w1 =>
  (greedyPlus ddChar w1.2).flatMap fun num =>
  (greedyStar wsChar num.2).flatMap fun w2 =>
  (litP unit w2.2).map fun _ => num.1

/-- the pattern Pause[^:]*?:\s*([\d.]+)\s*unit anchored at the head of cs -/
def pauseAt (unit cs : List Char) : List (List Char) :=
  (litP pauseLit cs).flatMap fun r1 =>
  (lazyStar (fun c => !(c == ':')) r1.2).flatMap fun mid =>
  (litP colonLit mid.2).flatMap fun r2 =>
  numUnit unit r2.2

/-- re.search of a pause pattern: the leftmost start position that admits a
    match wins, and within it the backtracking order decides the capture -/
def searchPause (unit : List Char) : List Char → Option (List Char)
  | [] => none
  | c :: rest =>
    match (pauseAt unit (c :: rest)).head? with
    | some t => some t
    | none => searchPause unit rest

/-- body of the optional group (?:(?P<ts>\d{4}-\d{2}-\d{2}T[0-9:.+-]+):\s*)
    of pattern_prefix; yields (ts capture, rest) candidates in engine order -/
def tsGroup (cs : List Char) : List (List Char × List Char) :=
  (repP Char.isDigit 4 cs).flatMap fun d4 =>
  (litP dashLit d4.2).flatMap fun s1 =>
  (repP Char.isDigit 2 s1.2).flatMap fun d2 =>
  (litP dashLit d2.2).flatMap fun s2 =>
  (repP Char.isDigit 2 s2.2).flatMap fun d3 =>
  (litP tLit d3.2).flatMap fun st =>
  (greedyPlus tsChar st.2).flatMap fun body =>
  (litP colonLit body.2).flatMap fun sc =>
  (greedyStar wsChar sc.2).map fun w =>
  (d4.1 ++ dashLit ++ d2.1 ++ dashLit ++ d3.1 ++ tLit ++ body.1, w.2)

/-- the mandatory tail (?P<uptime>[\d.]+)s?:\s* of pattern_prefix; the
    ordered candidate uptime captures -/
def uptimeTail (cs : List Char) : List (List Char) :=
  (greedyPlus ddChar cs).flatMap fun up =>
  ((litP sLit up.2).map (fun q => q.2) ++ [up.2]).flatMap fun r2 =>
  (litP colonLit r2).flatMap fun rc =>
  (greedyStar wsChar rc.2).map fun _ => up.1

/-- pattern_prefix.search: the pattern is anchored by ^ so only position 0
    is tried; the result carries the optional ts capture and the uptime
    capture of the match the engine commits to -/
def prefixSearch (cs : List Char) : Option (Option (List Char) × List Char) :=
  ((((tsGroup cs).map fun (p : List Char × List Char) =>
      ((some p.1 : Option (List Char)), p.2)) ++
      [(none, cs)]).flatMap fun o =>
    (uptimeTail o.2).map fun up => (o.1, up)).head?

/-- the Python substring test ("Pause" in line) -/
def containsPause : List Char → Bool
  | [] => false
  | c :: rest => pauseLit.isPrefixOf (c :: rest) || containsPause rest

def digitsToNat (cs : List Char) : Nat :=
  cs.foldl (fun a c => 10 * a + (c.toNat - 48)) 0

/-- Python float() on the tokens the patterns can capture (strings over
    [0-9.]): defined when there is at least one digit and at most one dot;
    none models the ValueError float() raises otherwise, e.g. on "." -/
def pyFloat (cs : List Char) : Option ℚ :=
  if cs.all ddChar && cs.any Char.isDigit && Nat.ble (cs.countP fun c => c == '.') 1 then
    some ((digitsToNat (cs.takeWhile fun c => !(c == '.')) : ℚ) +
      (digitsToNat ((cs.dropWhile fun c => !(c == '.')).drop 1) : ℚ) /
        (10 : ℚ) ^ ((cs.dropWhile fun c => !(c == '.')).drop 1).length)
  else none

/-- one parsed row of parse_unified_gc_log -/
structure PauseEvent where
  pause_ms : ℚ
  timestamp : Option (List Char)
  uptime_sec : Option ℚ
deriving DecidableEq

/-- outcome of the loop body of parse_unified_gc_log on one line -/
inductive ParseResult where
  | noMatch : ParseResult
  | valueError : ParseResult
  | event : PauseEvent → ParseResult
deriving DecidableEq

/-- the tail of the loop body once a pause duration has been resolved (or
    its float() conversion failed): attach the optional prefix captures -/
def finishEvent (pms : Option ℚ) (cs : List Char) : ParseResult :=
  match pms with
  | none => .valueError
  | some p =>
    match prefixSearch cs with
    | none => .event ⟨p, none, none⟩
    | some (ts, up) =>
      if up = [] then .event ⟨p, ts, none⟩
      else
        match pyFloat up with
        | none => .valueError
        | some u => .event ⟨p, ts, some u⟩

/-- the loop body of parse_unified_gc_log on one line: skip lines without
    the marker, try the ms pattern then the s pattern (ms has priority,
    the s capture is scaled by 1000), then attach the prefix captures -/
def parseLine (cs : List Char) : ParseResult :=
  if containsPause cs then
    match searchPause msLit cs, searchPause sLit cs with
    | none, none => .noMatch
    | some t, _ => finishEvent (pyFloat t) cs
    | none, some t => finishEvent ((pyFloat t).map fun v => v * 1000) cs
  else .noMatch

/-- parse_unified_gc_log over the lines of a file: the rows collected, or
    the ValueError that escapes the loop -/
def parse_unified_gc_log : List (List Char) → Except Unit (List PauseEvent)
  | [] => .ok []
  | l :: ls =>
    match parseLine l with
    | .noMatch => parse_unified_gc_log ls
    | .valueError => .error ()
    | .event e =>
      match parse_unified_gc_log ls with
      | .error u => .error u
      | .ok es => .ok (e :: es)

/-- Python sorted() on a list of rationals -/
def sortedQ (xs : List ℚ) : List ℚ := List.insertionSort (· ≤ ·) xs

/-- Python max() / pandas Series.max on a non-empty list (0 on the empty
    list, which the sources never query) -/
def listMax : List ℚ → ℚ
  | [] => 0
  | x :: t => t.foldl max x

/-- statistics.mean / pandas Series.mean / np.mean -/
def listMean (xs : List ℚ) : ℚ := xs.sum / xs.length

/-- percentile(series, q) of analyze_high_memory_scenarios.py: pandas
    Series.quantile(q/100) with its default linear interpolation at the
    fractional rank q/100*(n-1).  The empty series returns nan in the
    source, modelled as 0 and never consumed by the scoring path, which
    filters out empty frames first. -/
def percentile (xs : List ℚ) (q : ℚ) : ℚ :=
  if xs = [] then 0
  else
    let s := sortedQ xs
    let h : ℚ := q / 100 * ((xs.length : ℚ) - 1)
    let i : ℕ := ⌊h⌋.toNat
    let lo := s.getD i 0
    let hi := s.getD (i + 1) lo
    lo + (h - (i : ℚ)) * (hi - lo)

/-- the finite part of calculate_gc_score -/
def score_val (xs : List ℚ) : ℚ :=
  percentile xs 99 * 3 + percentile xs 95 * 2 + listMax xs * 2 +
    listMean xs + xs.sum / 1000

/-- calculate_gc_score of analyze_high_memory_scenarios.py (lower is
    better); float('inf') on an empty frame is the top element -/
def calculate_gc_score (xs : List ℚ) : WithTop ℚ :=
  if xs = [] then ⊤ else ((score_val xs : ℚ) : WithTop ℚ)

/-- one row of summary_rows of analyze_high_memory_scenarios.py for a
    (scenario, collector) pair with data -/
structure StatSummary where
  count : ℕ
  total : ℚ
  mean : ℚ
  max : ℚ
  p95 : ℚ
  p99 : ℚ
deriving DecidableEq

def summarize (xs : List ℚ) : StatSummary :=
  ⟨xs.length, xs.sum, listMean xs, listMax xs, percentile xs 95, percentile xs 99⟩

/-- p95 of quick_analysis.analyze_log: sorted(pauses)[int(len(pauses)*0.95)]
    when len > 20, else max(pauses).  For every list length in the machine
    range, int(n * 0.95) with the binary double closest to 0.95 equals
    ⌊n * 95/100⌋, so the index is modelled exactly. -/
def qaP95 (xs : List ℚ) : ℚ :=
  if 20 < xs.length then (sortedQ xs).getD (⌊(xs.length : ℚ) * (95 / 100)⌋).toNat 0
  else listMax xs

/-- p99 of quick_analysis.analyze_log, fallback threshold 100 -/
def qaP99 (xs : List ℚ) : ℚ :=
  if 100 < xs.length then (sortedQ xs).getD (⌊(xs.length : ℚ) * (99 / 100)⌋).toNat 0
  else listMax xs

/-- the statistics dictionary quick_analysis.analyze_log builds from the
    extracted pause list (None for the empty list, as in the source) -/
structure QuickSummary where
  count : ℕ
  total : ℚ
  mean : ℚ
  max : ℚ
  p95 : ℚ
  p99 : ℚ
deriving DecidableEq

def analyze_log_stats (pauses : List ℚ) : Option QuickSummary :=
  if pauses = [] then none
  else some ⟨pauses.length, pauses.sum, listMean pauses, listMax pauses,
    qaP95 pauses, qaP99 pauses⟩

/-- scenario ↦ collectors registered for it (log file exists), in
    registration order, each with its extracted pause list -/
abbrev ScenarioData := List (String × List (String × List ℚ))

/-- scenario_scores: the collectors whose frame is non-empty, with their
    score, in registration order -/
def scenario_scores (gcData : List (String × List ℚ)) : List (String × ℚ) :=
  gcData.filterMap fun p => if p.2 = [] then none else some (p.1, score_val p.2)

def minPairAux (best : String × ℚ) : List (String × ℚ) → String × ℚ
  | [] => best
  | q :: t => if q.2 < best.2 then minPairAux q t else minPairAux best t

/-- Python min(d, key=d.get) on an insertion-ordered dictionary: the first
    key attaining the minimal value, with that value; none models the
    ValueError min raises on an empty dictionary -/
def pyMinKey : List (String × ℚ) → Option (String × ℚ)
  | [] => none
  | p :: t => some (minPairAux p t)

/-- winner_analysis: for each scenario with at least one non-empty frame,
    the winner with its score, and the score table of the scenario -/
def winner_analysis (data : ScenarioData) :
    List (String × (String × ℚ) × List (String × ℚ)) :=
  data.filterMap fun sd =>
    match pyMinKey (scenario_scores sd.2) with
    | none => none
    | some ws => some (sd.1, ws, scenario_scores sd.2)

/-- overall_scores[gc].append(score): append into an insertion-ordered
    dictionary collector ↦ list of scores -/
def addScore (acc : List (String × List ℚ)) (g : String) (s : ℚ) :
    List (String × List ℚ) :=
  match acc with
  | [] => [(g, [s])]
  | p :: t => if p.1 = g then (p.1, p.2 ++ [s]) :: t else p :: addScore t g s

/-- overall_scores: every score of every scenario score table, grouped by
    collector in first-appearance order -/
def overall_scores (wa : List (String × (String × ℚ) × List (String × ℚ))) :
    List (String × List ℚ) :=
  wa.foldl (fun acc e => e.2.2.foldl (fun a p => addScore a p.1 p.2) acc) []

/-- avg_scores: collector ↦ np.mean of its collected scores -/
def avg_scores (wa : List (String × (String × ℚ) × List (String × ℚ))) :
    List (String × ℚ) :=
  (overall_scores wa).map fun p => (p.1, listMean p.2)

/-- overall_winner = min(avg_scores, key=avg_scores.get) -/
def overall_winner (data : ScenarioData) : Option String :=
  (pyMinKey (avg_scores (winner_analysis data))).map Prod.fst

/-- the per-collector count of scenarios won, as the report prints it -/
def winsOf (wa : List (String × (String × ℚ) × List (String × ℚ)))
    (g : String) : ℕ :=
  (wa.filter fun e => e.2.1.1 == g).length

/-- the scores a collector contributed across the scenario score tables,
    in scenario order: its score for exactly the scenarios in which it has
    an entry, nothing for scenarios from which it is absent -/
def scoresOf (g : String)
    (wa : List (String × (String × ℚ) × List (String × ℚ))) : List ℚ :=
  wa.flatMap fun e => (e.2.2.filter fun p => p.1 == g).map Prod.snd

/-- outcome of the winner-selection part of the script -/
inductive AnalysisOutcome where
  | noLogs : AnalysisOutcome
  | valueError : AnalysisOutcome
  | done : String → AnalysisOutcome
deriving DecidableEq

/-- the control flow of analyze_high_memory_scenarios.py around winner
    selection: the all_frames guard exits early ("No logs found") only
    when no log file exists at all; otherwise overall_winner is computed,
    whose min raises ValueError when avg_scores is empty -/
def runAnalysis (data : ScenarioData) : AnalysisOutcome :=
  if data.all fun sd => sd.2.isEmpty then .noLogs
  else
    match overall_winner data with
    | none => .valueError
    | some w => .done w

/- concrete inputs used by counterexamples and witnesses -/

def oneTen : List ℚ := [1, 2, 3, 4, 5, 6, 7, 8, 9, 10]
def secondsLine : List Char := "GC(5) Pause Cleanup: 0.5 s".toList
def bothUnitsLine : List Char := "Pause A: 1 s Pause B: 2 ms".toList
def noMarkerLine : List Char := "[info][gc] pause 5ms".toList
def markerNoNumberLine : List Char := "GC Pause Young (Allocation Failure)".toList
def dotLine : List Char := "Pause: . ms".toList
def noPrefixLine : List Char := "GC Pause Young: 5 ms".toList
def badUptimeLine : List Char := "1.2.3: Pause Young: 5 ms".toList
def tsLine : List Char := "2024-01-02T03:04:05.678: 1.5s: Pause Young: 3 ms".toList
def tsCapture : List Char := "2024-01-02T03:04:05.678".toList

/-- all eight log files exist but none contains a pause event -/
def emptyLogsData : ScenarioData :=
  [("baseline", [("zgc", []), ("shenandoah", [])]),
   ("high1", [("zgc", []), ("shenandoah", [])]),
   ("high2", [("zgc", []), ("shenandoah", [])]),
   ("high3", [("zgc", []), ("shenandoah", [])])]

/-- no log file exists at all -/
def missingLogsData : ScenarioData :=
  [("baseline", []), ("high1", []), ("high2", []), ("high3", [])]

/-- two collectors with identical data, hence identical scores -/
def tieData : List (String × List ℚ) := [("zgc", [2]), ("shenandoah", [2])]

def tieScenario : ScenarioData := [("high3", tieData)]

/-- two scenarios with data for both collectors -/
def demoData : ScenarioData :=
  [("baseline", [("zgc", [1]), ("shenandoah", [3])]),
   ("high1", [("zgc", [1]), ("shenandoah", [1])])]

/-- first-occurrence lookup in an insertion-ordered dictionary, the empty
    list for an absent key (specification device for overall_scores) -/
def fGet : List (String × List ℚ) → String → List ℚ
  | [], _ => []
  | p :: t, g => if p.1 = g then p.2 else fGet t g

/-- the score table the tie scenario produces -/
def tieSS : List (String × ℚ) := [("zgc", 8001 / 500), ("shenandoah", 8001 / 500)]

/- basic facts about listMax and sortedQ -/

theorem le_foldl_max (t : List ℚ) : ∀ a : ℚ, a ≤ t.foldl max a := by
  induction t with
  | nil => intro a; simp
  | cons c t ih =>
    intro a
    exact le_trans (le_max_left a c) (ih (max a c))

theorem mem_le_foldl_max (t : List ℚ) : ∀ a b : ℚ, b ∈ t → b ≤ t.foldl max a := by
  induction t with
  | nil => intro a b hb; simp at hb
  | cons c t ih =>
    intro a b hb
    rcases List.mem_cons.mp hb with h | h
    · subst h
      exact le_trans (le_max_right a b) (le_foldl_max t _)
    · exact ih _ _ h

theorem mem_le_listMax {a : ℚ} {xs : List ℚ} (h : a ∈ xs) : a ≤ listMax xs := by
  cases xs with
  | nil => simp at h
  | cons x t =>
    rcases List.mem_cons.mp h with h | h
    · subst h; exact le_foldl_max t a
    · exact mem_le_foldl_max t x a h

theorem sortedQ_perm (xs : List ℚ) : (sortedQ xs).Perm xs :=
  List.perm_insertionSort _ xs

theorem sortedQ_length (xs : List ℚ) : (sortedQ xs).length = xs.length :=
  (sortedQ_perm xs).length_eq

theorem sortedQ_sorted (xs : List ℚ) : (sortedQ xs).Sorted (· ≤ ·) :=
  List.sorted_insertionSort _ xs

theorem sortedQ_getD_mem (xs : List ℚ) (i : ℕ) (h : i < xs.length) (d : ℚ) :
    (sortedQ xs).getD i d ∈ xs := by
  have h' : i < (sortedQ xs).length := by rw [sortedQ_length]; exact h
  rw [List.getD_eq_getElem _ _ h']
  exact (sortedQ_perm xs).mem_iff.mp (List.getElem_mem h')

theorem sortedQ_getD_mono (xs : List ℚ) (i j : ℕ) (hij : i ≤ j) (hj : j < xs.length)
    (d e : ℚ) : (sortedQ xs).getD i d ≤ (sortedQ xs).getD j e := by
  have hj' : j < (sortedQ xs).length := by rw [sortedQ_length]; exact hj
  have hi' : i < (sortedQ xs).length := lt_of_le_of_lt hij hj'
  rw [List.getD_eq_getElem _ _ hi', List.getD_eq_getElem _ _ hj']
  rcases lt_or_eq_of_le hij with h | h
  · have := @List.Sorted.rel_get_of_lt ℚ (· ≤ ·) (sortedQ xs) (sortedQ_sorted xs)
      ⟨i, hi'⟩ ⟨j, hj'⟩ (Fin.mk_lt_mk.mpr h)
    simpa using this
  · subst h; exact le_refl _

/-- the linear-interpolation quantile never exceeds the maximum -/
theorem percentile_le_listMax (xs : List ℚ) (hne : xs ≠ []) (q : ℚ)
    (h0 : 0 ≤ q) (h1 : q ≤ 100) : percentile xs q ≤ listMax xs := by
  have hlen : 1 ≤ xs.length := List.length_pos.mpr hne
  have hn1 : (1 : ℚ) ≤ (xs.length : ℚ) := by exact_mod_cast hlen
  simp only [percentile, if_neg hne]
  set h : ℚ := q / 100 * ((xs.length : ℚ) - 1) with hh
  have hq1 : q / 100 ≤ 1 := (div_le_one (by norm_num)).mpr h1
  have hq0 : 0 ≤ q / 100 := div_nonneg h0 (by norm_num)
  have hh0 : 0 ≤ h := mul_nonneg hq0 (by linarith)
  have hh1 : h ≤ (xs.length : ℚ) - 1 := by
    calc h ≤ 1 * ((xs.length : ℚ) - 1) :=
      mul_le_mul_of_nonneg_right hq1 (by linarith)
    _ = (xs.length : ℚ) - 1 := one_mul _
  set i : ℕ := ⌊h⌋.toNat with hidef
  have hfl0 : 0 ≤ ⌊h⌋ := Int.floor_nonneg.mpr hh0
  have hcast : ((i : ℕ) : ℚ) = ((⌊h⌋ : ℤ) : ℚ) := by
    rw [hidef]
    norm_cast
    exact Int.toNat_of_nonneg hfl0
  have hile : (i : ℚ) ≤ h := by rw [hcast]; exact Int.floor_le h
  have hfrac : h - (i : ℚ) < 1 := by
    have := Int.lt_floor_add_one h
    rw [hcast]
    linarith [this]
  have hin : i < xs.length := by
    have hlt : ⌊h⌋ < (xs.length : ℤ) := Int.floor_lt.mpr (by push_cast; linarith)
    exact (Int.toNat_lt hfl0).mpr hlt
  by_cases hcase : i + 1 < xs.length
  · have hlo := sortedQ_getD_mem xs i hin 0
    have hhi := sortedQ_getD_mem xs (i + 1) hcase ((sortedQ xs).getD i 0)
    have hmono := sortedQ_getD_mono xs i (i + 1) (by omega) hcase 0 ((sortedQ xs).getD i 0)
    have hmax := mem_le_listMax hhi
    nlinarith [hmono, hmax, hile, hfrac,
      mul_le_mul_of_nonneg_right (le_of_lt hfrac)
        (sub_nonneg.mpr hmono)]
  · rw [@List.getD_eq_default ℚ (sortedQ xs) ((sortedQ xs).getD i 0) (i + 1)
      (by rw [sortedQ_length]; exact Nat.le_of_not_lt hcase)]
    have hlo := sortedQ_getD_mem xs i hin 0
    have hmax := mem_le_listMax hlo
    nlinarith [hmax]

/-- the quick-analysis p95 never exceeds the maximum -/
theorem qaP95_le_listMax (xs : List ℚ) : qaP95 xs ≤ listMax xs := by
  unfold qaP95
  split
  · next h20 =>
    have hpos : 0 < xs.length := by omega
    have hq : (0 : ℚ) ≤ (xs.length : ℚ) * (95 / 100) := by positivity
    have hfl0 : 0 ≤ ⌊(xs.length : ℚ) * (95 / 100)⌋ := Int.floor_nonneg.mpr hq
    have hin : (⌊(xs.length : ℚ) * (95 / 100)⌋).toNat < xs.length := by
      have hlt : ⌊(xs.length : ℚ) * (95 / 100)⌋ < (xs.length : ℤ) := by
        refine Int.floor_lt.mpr ?_
        have hc : (0 : ℚ) < (xs.length : ℚ) := by exact_mod_cast hpos
        push_cast
        nlinarith [hc]
      exact (Int.toNat_lt hfl0).mpr hlt
    exact mem_le_listMax (sortedQ_getD_mem xs _ hin 0)
  · exact le_refl _

/-- the quick-analysis p99 never exceeds the maximum -/
theorem qaP99_le_listMax (xs : List ℚ) : qaP99 xs ≤ listMax xs := by
  unfold qaP99
  split
  · next h100 =>
    have hpos : 0 < xs.length := by omega
    have hq : (0 : ℚ) ≤ (xs.length : ℚ) * (99 / 100) := by positivity
    have hfl0 : 0 ≤ ⌊(xs.length : ℚ) * (99 / 100)⌋ := Int.floor_nonneg.mpr hq
    have hin : (⌊(xs.length : ℚ) * (99 / 100)⌋).toNat < xs.length := by
      have hlt : ⌊(xs.length : ℚ) * (99 / 100)⌋ < (xs.length : ℤ) := by
        refine Int.floor_lt.mpr ?_
        have hc : (0 : ℚ) < (xs.length : ℚ) := by exact_mod_cast hpos
        push_cast
        nlinarith [hc]
      exact (Int.toNat_lt hfl0).mpr hlt
    exact mem_le_listMax (sortedQ_getD_mem xs _ hin 0)
  · exact le_refl _

/-- C8: for every non-empty sequence of pause durations, the summary of the
    richer analysis path and the summary of the quick analysis path both
    satisfy p95 ≤ max and p99 ≤ max, and mean equals total divided by count
    exactly (the floating-point tolerance of the claim is exact equality in
    the rational model). -/
theorem C8_summary_invariants (xs : List ℚ) (hne : xs ≠ []) :
    (summarize xs).p95 ≤ (summarize xs).max ∧
    (summarize xs).p99 ≤ (summarize xs).max ∧
    (summarize xs).mean = (summarize xs).total / ((summarize xs).count : ℚ) ∧
    ∀ qs, analyze_log_stats xs = some qs →
      qs.p95 ≤ qs.max ∧ qs.p99 ≤ qs.max ∧ qs.mean = qs.total / (qs.count : ℚ) := by
  refine ⟨?_, ?_, rfl, ?_⟩
  · exact percentile_le_listMax xs hne 95 (by norm_num) (by norm_num)
  · exact percentile_le_listMax xs hne 99 (by norm_num) (by norm_num)
  · intro qs hqs
    unfold analyze_log_stats at hqs
    rw [if_neg hne] at hqs
    have hq := Option.some.inj hqs
    subst hq
    exact ⟨qaP95_le_listMax xs, qaP99_le_listMax xs, rfl⟩

/-- C8 witness: the invariants instantiated on the concrete sample
    [1, ..., 10]. -/
theorem C8_witness :
    (summarize oneTen).p95 ≤ (summarize oneTen).max ∧
    (summarize oneTen).p99 ≤ (summarize oneTen).max ∧
    (summarize oneTen).mean = (summarize oneTen).total / ((summarize oneTen).count : ℚ) ∧
    ∀ qs, analyze_log_stats oneTen = some qs →
      qs.p95 ≤ qs.max ∧ qs.p99 ≤ qs.max ∧ qs.mean = qs.total / (qs.count : ℚ) :=
  C8_summary_invariants oneTen (by decide)

/-- C1 counterexample: the percentile function of the richer analysis path
    (the one calculate_gc_score uses for final winner scoring) applies
    linear interpolation, so on the ten-element sample [1, ..., 10] it
    reports p95 = 9.55, strictly below the maximum 10 — the claimed
    nearest-rank-with-fallback policy would report the maximum. -/
theorem C1_counterexample :
    percentile oneTen 95 = 191 / 20 ∧ listMax oneTen = 10 ∧
    percentile oneTen 95 ≠ listMax oneTen := by
  have h1 : percentile oneTen 95 = 191 / 20 := by with_unfolding_all decide
  have h2 : listMax oneTen = 10 := by with_unfolding_all decide
  exact ⟨h1, h2, by rw [h1, h2]; norm_num⟩

/-- C1 amended: nearest-rank-with-fallback is the policy of the quick
    analysis path, not of the richer analysis path used for final winner
    scoring: every sample of exactly 10 values reports p95 = max in the
    quick path, while the richer path's linear-interpolation percentile
    reports strictly less than the maximum on [1, ..., 10]. -/
theorem C1_amended_thm :
    (∀ xs : List ℚ, xs.length = 10 → qaP95 xs = listMax xs) ∧
    percentile oneTen 95 < listMax oneTen := by
  constructor
  · intro xs h
    unfold qaP95
    rw [if_neg (by omega)]
  · have h1 : percentile oneTen 95 = 191 / 20 := by with_unfolding_all decide
    have h2 : listMax oneTen = 10 := by with_unfolding_all decide
    rw [h1, h2]; norm_num

/-- C1 amended witness: the quick-path fallback on the concrete ten-element
    sample. -/
theorem C1_amended_witness : qaP95 oneTen = listMax oneTen :=
  C1_amended_thm.1 oneTen (by decide)

/-- C3: calculate_gc_score returns the +infinity sentinel exactly when the
    summary has count 0, and otherwise the exact weighted combination
    3 p99 + 2 p95 + 2 max + mean + total/1000 of the summary fields. -/
theorem C3_score_formula (xs : List ℚ) :
    ((summarize xs).count = 0 → calculate_gc_score xs = ⊤) ∧
    (0 < (summarize xs).count → calculate_gc_score xs =
      ((3 * (summarize xs).p99 + 2 * (summarize xs).p95 + 2 * (summarize xs).max +
        (summarize xs).mean + (summarize xs).total / 1000 : ℚ) : WithTop ℚ)) := by
  constructor
  · intro h
    have hxs : xs = [] := List.length_eq_zero.mp h
    simp [calculate_gc_score, hxs]
  · intro h
    have hxs : xs ≠ [] := List.length_pos.mp h
    simp only [calculate_gc_score, if_neg hxs]
    have hval : score_val xs = 3 * (summarize xs).p99 + 2 * (summarize xs).p95 +
        2 * (summarize xs).max + (summarize xs).mean + (summarize xs).total / 1000 := by
      simp only [score_val, summarize]
      ring
    rw [hval]

/-- C3 witness: the sentinel on the empty summary and the formula on the
    one-element sample [2]. -/
theorem C3_witness :
    calculate_gc_score ([] : List ℚ) = ⊤ ∧
    calculate_gc_score [2] =
      ((3 * (summarize [2]).p99 + 2 * (summarize [2]).p95 + 2 * (summarize [2]).max +
        (summarize [2]).mean + (summarize [2]).total / 1000 : ℚ) : WithTop ℚ) :=
  ⟨(C3_score_formula []).1 rfl, (C3_score_formula [2]).2 (by decide)⟩

/- inversion facts about the parser -/

theorem maxRun_le_length (p : Char → Bool) : ∀ cs : List Char, maxRun p cs ≤ cs.length := by
  intro cs
  induction cs with
  | nil => simp [maxRun]
  | cons c t ih =>
    by_cases h : p c
    · simp only [maxRun, if_pos h, List.length_cons]
      omega
    · simp [maxRun, if_neg h]

theorem greedyPlus_fst_ne_nil (p : Char → Bool) (cs : List Char) :
    ∀ r ∈ greedyPlus p cs, r.1 ≠ [] := by
  intro r hr
  unfold greedyPlus at hr
  rcases List.mem_map.mp hr with ⟨k, hk, hrk⟩
  have hk' : k < maxRun p cs := List.mem_range.mp (List.mem_reverse.mp hk)
  have hle : maxRun p cs ≤ cs.length := maxRun_le_length p cs
  subst hrk
  intro hnil
  have h1 : cs.take (k + 1) = [] := hnil
  have hlen := congrArg List.length h1
  rw [List.length_take] at hlen
  simp only [List.length_nil] at hlen
  omega

theorem mem_uptimeTail_ne_nil (cs t : List Char) (h : t ∈ uptimeTail cs) : t ≠ [] := by
  unfold uptimeTail at h
  rcases List.mem_flatMap.mp h with ⟨up, hup, hmem⟩
  rcases List.mem_flatMap.mp hmem with ⟨r2, hr2, hmem2⟩
  rcases List.mem_flatMap.mp hmem2 with ⟨rc, hrc, hmem3⟩
  rcases List.mem_map.mp hmem3 with ⟨w, hw, ht⟩
  subst ht
  exact greedyPlus_fst_ne_nil ddChar cs up hup

/-- a committed prefix match always carries a non-empty uptime capture -/
theorem prefixSearch_uptime_ne_nil (cs : List Char) (ts : Option (List Char))
    (up : List Char) (h : prefixSearch cs = some (ts, up)) : up ≠ [] := by
  unfold prefixSearch at h
  have hmem : (ts, up) ∈ ((((tsGroup cs).map fun (p : List Char × List Char) =>
      ((some p.1 : Option (List Char)), p.2)) ++
      [(none, cs)]).flatMap fun o =>
    (uptimeTail o.2).map fun up => (o.1, up)) := List.mem_of_mem_head? h
  rcases List.mem_flatMap.mp hmem with ⟨o, ho, hmem2⟩
  rcases List.mem_map.mp hmem2 with ⟨u, hu, hpair⟩
  have hup : u = up := congrArg Prod.snd hpair
  subst hup
  exact mem_uptimeTail_ne_nil o.2 u hu

/-- what a produced event says about the duration and the prefix captures -/
theorem finishEvent_event_fields (pms : Option ℚ) (cs : List Char) (e : PauseEvent)
    (h : finishEvent pms cs = ParseResult.event e) :
    pms = some e.pause_ms ∧
    (prefixSearch cs = none → e.timestamp = none ∧ e.uptime_sec = none) ∧
    (∀ ts up, prefixSearch cs = some (ts, up) → e.timestamp = ts ∧
      ∃ u, pyFloat up = some u ∧ e.uptime_sec = some u) := by
  unfold finishEvent at h
  split at h
  · exact absurd h (by simp)
  · split at h
    · next hsp =>
      injection h with he
      subst he
      refine ⟨rfl, fun _ => ⟨rfl, rfl⟩, fun ts up hc => ?_⟩
      exact absurd (hsp ▸ hc) (by simp)
    · next ts0 up0 hsp =>
      split at h
      · next hup =>
        exact absurd hup (prefixSearch_uptime_ne_nil cs ts0 up0 hsp)
      · next hup =>
        split at h
        · exact absurd h (by simp)
        · next u hpf =>
          injection h with he
          subst he
          refine ⟨rfl, fun hc => ?_, fun ts up hc => ?_⟩
          · exact absurd (hsp ▸ hc).symm (by simp)
          · have hinj := Option.some.inj ((hsp ▸ hc) : some (ts0, up0) = some (ts, up))
            have hts : ts0 = ts := congrArg Prod.fst hinj
            have hupq : up0 = up := congrArg Prod.snd hinj
            subst hts
            subst hupq
            exact ⟨rfl, u, hpf, rfl⟩

/-- a produced event came through finishEvent with the token the ms search
    found (when it found one), or else the s search scaled by 1000 -/
theorem parseLine_event_finish (cs : List Char) (e : PauseEvent)
    (h : parseLine cs = ParseResult.event e) :
    (∃ t, searchPause msLit cs = some t ∧ finishEvent (pyFloat t) cs = ParseResult.event e) ∨
    (searchPause msLit cs = none ∧ ∃ t, searchPause sLit cs = some t ∧
      finishEvent ((pyFloat t).map fun v => v * 1000) cs = ParseResult.event e) := by
  unfold parseLine at h
  by_cases hcp : containsPause cs
  · rw [if_pos hcp] at h
    cases hms : searchPause msLit cs with
    | some t =>
      rw [hms] at h
      exact Or.inl ⟨t, rfl, h⟩
    | none =>
      cases hs : searchPause sLit cs with
      | some t =>
        rw [hms, hs] at h
        exact Or.inr ⟨rfl, t, rfl, h⟩
      | none =>
        rw [hms, hs] at h
        exact absurd h (by simp)
  · rw [if_neg hcp] at h
    exact absurd h (by simp)

/-- C4: the parser recognizes the millisecond form and the second form; a
    produced event whose line only matched the second form carries the
    captured number multiplied by 1000 (concretely, "... Pause ...: 0.5 s"
    yields 500.0 ms), and when the millisecond form matches the same line
    it takes priority over the second form. -/
theorem C4_unit_priority :
    (∀ cs t e, searchPause msLit cs = some t → parseLine cs = ParseResult.event e →
      pyFloat t = some e.pause_ms) ∧
    (∀ cs t e, searchPause msLit cs = none → searchPause sLit cs = some t →
      parseLine cs = ParseResult.event e →
      ∃ v, pyFloat t = some v ∧ e.pause_ms = v * 1000) ∧
    parseLine secondsLine = ParseResult.event ⟨500, none, none⟩ := by
  refine ⟨?_, ?_, by with_unfolding_all decide⟩
  · intro cs t e hms h
    rcases parseLine_event_finish cs e h with ⟨t', ht', hfe⟩ | ⟨hnone, _⟩
    · have htt : t' = t := Option.some.inj (ht'.symm.trans hms)
      subst htt
      exact (finishEvent_event_fields _ cs e hfe).1
    · rw [hnone] at hms
      exact absurd hms (by simp)
  · intro cs t e hms hs h
    rcases parseLine_event_finish cs e h with ⟨t', ht', _⟩ | ⟨_, t', ht', hfe⟩
    · rw [hms] at ht'
      exact absurd ht' (by simp)
    · have htt : t' = t := Option.some.inj (ht'.symm.trans hs)
      subst htt
      have hmap := (finishEvent_event_fields _ cs e hfe).1
      rcases Option.map_eq_some'.mp hmap with ⟨v, hv, hmul⟩
      exact ⟨v, hv, hmul.symm⟩

/-- C4 witness: the millisecond capture wins on a line matching both forms,
    and the second-form conversion on the 0.5 s line. -/
theorem C4_witness :
    pyFloat "2".toList = some ((PauseEvent.mk 2 none none).pause_ms) ∧
    (∃ v, pyFloat "0.5".toList = some v ∧
      (PauseEvent.mk 500 none none).pause_ms = v * 1000) :=
  ⟨C4_unit_priority.1 bothUnitsLine "2".toList ⟨2, none, none⟩
      (by with_unfolding_all decide) (by with_unfolding_all decide),
   C4_unit_priority.2.1 secondsLine "0.5".toList ⟨500, none, none⟩
      (by with_unfolding_all decide) (by with_unfolding_all decide)
      (by with_unfolding_all decide)⟩

/-- C5: a line without the case-sensitive marker yields no event, and so
    does a marker line without a number-shaped duration; but the code can
    raise instead of dropping: on "Pause: . ms" the duration pattern
    captures "." and float(".") raises ValueError, so the parse of a file
    containing that line dies instead of skipping it. -/
theorem C5_marker_and_error_eval :
    parseLine noMarkerLine = ParseResult.noMatch ∧
    parseLine markerNoNumberLine = ParseResult.noMatch ∧
    parseLine dotLine = ParseResult.valueError ∧
    parse_unified_gc_log [noMarkerLine, dotLine] = Except.error () := by
  refine ⟨?_, ?_, ?_, ?_⟩
  · with_unfolding_all decide
  · with_unfolding_all decide
  · with_unfolding_all decide
  · with_unfolding_all rfl

/-- C9: a failed prefix match leaves the extraction intact with both
    optional fields unset; but when the prefix does match with a capture
    float() cannot read, the code raises ValueError instead of attaching
    the values: on "1.2.3: Pause Young: 5 ms" the prefix matches with
    uptime capture "1.2.3" and the parser dies despite the resolvable
    5 ms duration. -/
theorem C9_prefix_eval :
    parseLine noPrefixLine = ParseResult.event ⟨5, none, none⟩ ∧
    prefixSearch badUptimeLine = some (none, "1.2.3".toList) ∧
    parseLine badUptimeLine = ParseResult.valueError := by
  with_unfolding_all decide

/-- C10: in every event the parser produces, a set timestamp forces a set
    uptime: the prefix pattern cannot match without its mandatory uptime
    capture, and an unreadable capture kills the event instead of leaving
    the field unset. -/
theorem C10_ts_implies_uptime (cs : List Char) (e : PauseEvent)
    (h : parseLine cs = ParseResult.event e) (hts : e.timestamp ≠ none) :
    e.uptime_sec ≠ none := by
  have hfe : ∃ pms, finishEvent pms cs = ParseResult.event e := by
    rcases parseLine_event_finish cs e h with ⟨t, _, hfe⟩ | ⟨_, t, _, hfe⟩
    · exact ⟨pyFloat t, hfe⟩
    · exact ⟨(pyFloat t).map fun v => v * 1000, hfe⟩
  rcases hfe with ⟨pms, hfe⟩
  have hfields := finishEvent_event_fields pms cs e hfe
  cases hsp : prefixSearch cs with
  | none =>
    exact absurd (hfields.2.1 hsp).1 hts
  | some pr =>
    obtain ⟨ts0, up0⟩ := pr
    rcases (hfields.2.2 ts0 up0 hsp).2 with ⟨u, _, hu⟩
    rw [hu]
    simp

/-- C10 witness: a concrete line carrying both a timestamp and an uptime
    prefix produces an event with both fields set. -/
theorem C10_witness :
    parseLine tsLine = ParseResult.event ⟨3, some tsCapture, some (3 / 2)⟩ ∧
    (PauseEvent.mk 3 (some tsCapture) (some (3 / 2))).uptime_sec ≠ none :=
  ⟨by with_unfolding_all decide,
   C10_ts_implies_uptime tsLine ⟨3, some tsCapture, some (3 / 2)⟩
      (by with_unfolding_all decide) (by simp)⟩

/- facts about the Python min over an insertion-ordered dictionary -/

theorem minPairAux_le_init (t : List (String × ℚ)) :
    ∀ best : String × ℚ, (minPairAux best t).2 ≤ best.2 := by
  induction t with
  | nil => intro best; exact le_refl _
  | cons q t ih =>
    intro best
    unfold minPairAux
    by_cases h : q.2 < best.2
    · rw [if_pos h]
      exact le_trans (ih q) (le_of_lt h)
    · rw [if_neg h]
      exact ih best

/-- the kept pair splits the dictionary into a strict-greater prefix and a
    no-smaller suffix: Python min keeps the first minimum -/
theorem minPairAux_split (t : List (String × ℚ)) :
    ∀ best : String × ℚ, ∃ l1 l2, best :: t = l1 ++ minPairAux best t :: l2 ∧
      (∀ p ∈ l1, (minPairAux best t).2 < p.2) ∧
      (∀ p ∈ l2, (minPairAux best t).2 ≤ p.2) := by
  induction t with
  | nil =>
    intro best
    exact ⟨[], [], rfl, by simp, by simp⟩
  | cons q t ih =>
    intro best
    unfold minPairAux
    by_cases h : q.2 < best.2
    · rw [if_pos h]
      obtain ⟨l1, l2, heq, h1, h2⟩ := ih q
      refine ⟨best :: l1, l2, ?_, ?_, h2⟩
      · rw [List.cons_append, ← heq]
      · intro p hp
        rcases List.mem_cons.mp hp with hp | hp
        · subst hp
          exact lt_of_le_of_lt (minPairAux_le_init t q) h
        · exact h1 p hp
    · rw [if_neg h]
      obtain ⟨l1, l2, heq, h1, h2⟩ := ih best
      cases l1 with
      | nil =>
        have hb : best = minPairAux best t := ((List.cons.injEq _ _ _ _).mp heq).1
        have ht : t = l2 := ((List.cons.injEq _ _ _ _).mp heq).2
        refine ⟨[], q :: t, ?_, by simp, ?_⟩
        · rw [← hb]
          rfl
        · intro p hp
          rcases List.mem_cons.mp hp with hp | hp
          · subst hp
            rw [← hb]
            exact le_of_not_lt h
          · exact h2 p (ht ▸ hp)
      | cons b l1' =>
        have hb : best = b := ((List.cons.injEq _ _ _ _).mp heq).1
        have ht : t = l1' ++ minPairAux best t :: l2 := ((List.cons.injEq _ _ _ _).mp heq).2
        have hbm : (minPairAux best t).2 < best.2 :=
          h1 best (by rw [hb]; exact List.mem_cons_self b l1')
        refine ⟨best :: q :: l1', l2, ?_, ?_, h2⟩
        · rw [List.cons_append, List.cons_append, ← ht]
        · intro p hp
          rcases List.mem_cons.mp hp with hp | hp
          · subst hp
            exact hbm
          · rcases List.mem_cons.mp hp with hp | hp
            · subst hp
              exact lt_of_lt_of_le hbm (le_of_not_lt h)
            · exact h1 p (List.mem_cons_of_mem b hp)

theorem pyMinKey_split (l : List (String × ℚ)) (w : String) (s : ℚ)
    (h : pyMinKey l = some (w, s)) :
    ∃ l1 l2, l = l1 ++ (w, s) :: l2 ∧ (∀ p ∈ l1, s < p.2) ∧ ∀ p ∈ l2, s ≤ p.2 := by
  cases l with
  | nil => exact absurd h (by simp [pyMinKey])
  | cons p t =>
    have hmin : minPairAux p t = (w, s) := Option.some.inj (by simpa [pyMinKey] using h)
    obtain ⟨l1, l2, heq, h1, h2⟩ := minPairAux_split t p
    rw [hmin] at heq h1 h2
    exact ⟨l1, l2, heq, h1, h2⟩

/-- C6: every per-scenario winner recorded in winner_analysis carries the
    minimal score of that scenario's score table, and on ties it is the
    first-registered collector: every strictly earlier table entry has a
    strictly larger score and every later entry scores no less. -/
theorem C6_scenario_winner (data : ScenarioData) (sc w : String) (s : ℚ)
    (ss : List (String × ℚ)) (hmem : (sc, (w, s), ss) ∈ winner_analysis data) :
    (∃ gcData, (sc, gcData) ∈ data ∧ ss = scenario_scores gcData) ∧
    (w, s) ∈ ss ∧ (∀ p ∈ ss, s ≤ p.2) ∧
    ∃ l1 l2, ss = l1 ++ (w, s) :: l2 ∧ ∀ p ∈ l1, s < p.2 := by
  unfold winner_analysis at hmem
  rcases List.mem_filterMap.mp hmem with ⟨sd, hsd, hopt⟩
  cases hpm : pyMinKey (scenario_scores sd.2) with
  | none => rw [hpm] at hopt; exact absurd hopt (by simp)
  | some ws =>
    rw [hpm] at hopt
    have hinj := Option.some.inj hopt
    have hsc : sd.1 = sc := congrArg (fun x => x.1) hinj
    have hws : ws = (w, s) := congrArg (fun x => x.2.1) hinj
    have hss : scenario_scores sd.2 = ss := congrArg (fun x => x.2.2) hinj
    subst hws
    constructor
    · refine ⟨sd.2, ?_, hss.symm⟩
      rw [← hsc]
      exact hsd
    · rw [← hss]
      obtain ⟨l1, l2, heq, hlt, hle⟩ := pyMinKey_split _ w s hpm
      refine ⟨?_, ?_, l1, l2, heq, hlt⟩
      · rw [heq]
        exact List.mem_append_right _ (List.mem_cons_self _ _)
      · intro p hp
        rw [heq] at hp
        rcases List.mem_append.mp hp with hp | hp
        · exact le_of_lt (hlt p hp)
        · rcases List.mem_cons.mp hp with hp | hp
          · rw [hp]
          · exact hle p hp

/-- C6 witness: on the tie scenario, where both collectors share the score
    16.002, the first-registered collector wins. -/
theorem C6_witness :
    (∃ gcData, ("high3", gcData) ∈ tieScenario ∧ tieSS = scenario_scores gcData) ∧
    ("zgc", (8001 : ℚ) / 500) ∈ tieSS ∧ (∀ p ∈ tieSS, (8001 : ℚ) / 500 ≤ p.2) ∧
    ∃ l1 l2, tieSS = l1 ++ ("zgc", (8001 : ℚ) / 500) :: l2 ∧
      ∀ p ∈ l1, (8001 : ℚ) / 500 < p.2 :=
  C6_scenario_winner tieScenario "high3" "zgc" (8001 / 500) tieSS (by
    have hwa : winner_analysis tieScenario = [("high3", ("zgc", 8001 / 500), tieSS)] := by
      norm_num +decide [winner_analysis, tieScenario, tieData, tieSS, scenario_scores,
        pyMinKey, minPairAux, score_val, percentile, sortedQ, listMax, listMean,
        List.insertionSort, List.orderedInsert, List.filterMap]
    rw [hwa]
    exact List.mem_singleton.mpr rfl)

/- the overall_scores dictionary collects, per collector, exactly its
   scores from the scenarios in which it has an entry -/

theorem fGet_addScore (acc : List (String × List ℚ)) (g g' : String) (s : ℚ) :
    fGet (addScore acc g s) g' =
      if g' = g then fGet acc g' ++ [s] else fGet acc g' := by
  induction acc with
  | nil =>
    by_cases h : g' = g
    · subst h
      simp [addScore, fGet]
    · simp only [addScore, fGet, if_neg h]
      rw [if_neg fun hc => h hc.symm]
  | cons p t ih =>
    by_cases hpg : p.1 = g
    · simp only [addScore, if_pos hpg]
      by_cases h' : g' = g
      · subst h'
        simp [fGet, hpg]
      · have hp' : p.1 ≠ g' := fun hc => h' (hc ▸ hpg)
        simp [fGet, hp', if_neg h']
    · simp only [addScore, if_neg hpg]
      by_cases hp' : p.1 = g'
      · have hgg : g' ≠ g := fun hc => hpg (hp'.trans hc)
        simp [fGet, hp', hgg]
      · simp [fGet, hp', ih]

theorem fGet_foldl_addScore (ss : List (String × ℚ)) :
    ∀ (acc : List (String × List ℚ)) (g : String),
      fGet (ss.foldl (fun a p => addScore a p.1 p.2) acc) g =
        fGet acc g ++ (ss.filter fun p => p.1 == g).map Prod.snd := by
  induction ss with
  | nil => intro acc g; simp
  | cons p ss ih =>
    intro acc g
    rw [List.foldl_cons, ih, fGet_addScore]
    by_cases h : g = p.1
    · rw [if_pos h, List.filter_cons_of_pos (by simp [h.symm])]
      simp
    · rw [if_neg h, List.filter_cons_of_neg (by simp; exact fun hc => h hc.symm)]

theorem fGet_overall_scores (wa : List (String × (String × ℚ) × List (String × ℚ)))
    (g : String) : fGet (overall_scores wa) g = scoresOf g wa := by
  suffices haux : ∀ acc,
      fGet (wa.foldl (fun acc e => e.2.2.foldl (fun a p => addScore a p.1 p.2) acc) acc) g =
        fGet acc g ++ scoresOf g wa by
    simpa [overall_scores, fGet] using haux []
  induction wa with
  | nil => intro acc; simp [scoresOf]
  | cons e wa ih =>
    intro acc
    rw [List.foldl_cons, ih, fGet_foldl_addScore]
    simp [scoresOf, List.append_assoc]

theorem addScore_keys (acc : List (String × List ℚ)) (g : String) (s : ℚ) :
    (addScore acc g s).map Prod.fst =
      if g ∈ acc.map Prod.fst then acc.map Prod.fst else acc.map Prod.fst ++ [g] := by
  induction acc with
  | nil => simp [addScore]
  | cons p t ih =>
    by_cases h : p.1 = g
    · simp [addScore, h]
    · simp only [addScore, if_neg h, List.map_cons, ih]
      have hgp : ¬ g = p.1 := fun hc => h hc.symm
      by_cases hm : g ∈ t.map Prod.fst
      · simp [hm, hgp]
      · simp [hm, hgp]

theorem addScore_keys_nodup (acc : List (String × List ℚ)) (g : String) (s : ℚ)
    (h : (acc.map Prod.fst).Nodup) : ((addScore acc g s).map Prod.fst).Nodup := by
  rw [addScore_keys]
  by_cases hm : g ∈ acc.map Prod.fst
  · rw [if_pos hm]; exact h
  · rw [if_neg hm]
    simp [List.nodup_append, h, hm]

theorem foldl_addScore_keys_nodup (ss : List (String × ℚ)) :
    ∀ acc : List (String × List ℚ), (acc.map Prod.fst).Nodup →
      (((ss.foldl (fun a p => addScore a p.1 p.2) acc)).map Prod.fst).Nodup := by
  induction ss with
  | nil => intro acc h; exact h
  | cons p ss ih =>
    intro acc h
    rw [List.foldl_cons]
    exact ih _ (addScore_keys_nodup acc p.1 p.2 h)

theorem overall_scores_keys_nodup (wa : List (String × (String × ℚ) × List (String × ℚ))) :
    ((overall_scores wa).map Prod.fst).Nodup := by
  suffices haux : ∀ acc : List (String × List ℚ), (acc.map Prod.fst).Nodup →
      ((wa.foldl (fun acc e => e.2.2.foldl (fun a p => addScore a p.1 p.2) acc) acc).map
        Prod.fst).Nodup by
    exact haux [] (by simp)
  induction wa with
  | nil => intro acc h; exact h
  | cons e wa ih =>
    intro acc h
    rw [List.foldl_cons]
    exact ih _ (foldl_addScore_keys_nodup e.2.2 acc h)

theorem mem_fGet (acc : List (String × List ℚ)) (g : String) (l : List ℚ)
    (hnd : (acc.map Prod.fst).Nodup) (hmem : (g, l) ∈ acc) : fGet acc g = l := by
  induction acc with
  | nil => simp at hmem
  | cons p t ih =>
    rcases List.mem_cons.mp hmem with h | h
    · subst h
      simp [fGet]
    · rw [List.map_cons] at hnd
      have hnd' := List.nodup_cons.mp hnd
      have hg : g ∈ t.map Prod.fst := List.mem_map.mpr ⟨(g, l), h, rfl⟩
      have hne : p.1 ≠ g := fun hc => hnd'.1 (hc ▸ hg)
      simp only [fGet, if_neg hne]
      exact ih hnd'.2 h

/-- every avg_scores entry is the mean of exactly the scores its collector
    contributed across the scenarios in which it has an entry -/
theorem mem_avg_scores (wa : List (String × (String × ℚ) × List (String × ℚ)))
    (g : String) (m : ℚ) (h : (g, m) ∈ avg_scores wa) :
    m = listMean (scoresOf g wa) := by
  unfold avg_scores at h
  rcases List.mem_map.mp h with ⟨p, hp, hpq⟩
  have hg : p.1 = g := congrArg Prod.fst hpq
  have hm : listMean p.2 = m := congrArg Prod.snd hpq
  have hfg : fGet (overall_scores wa) p.1 = p.2 :=
    mem_fGet _ p.1 p.2 (overall_scores_keys_nodup wa) hp
  subst hg
  rw [← hm, ← fGet_overall_scores, hfg]

/-- C7: the overall winner attains the minimal mean score, where each
    collector's mean ranges over exactly the scenarios in which it has an
    entry (absent scenarios contribute nothing to it), and the reported
    per-collector win count is the number of scenarios that collector won. -/
theorem C7_overall_winner (data : ScenarioData) (w : String)
    (h : overall_winner data = some w) :
    (∀ g m, (g, m) ∈ avg_scores (winner_analysis data) →
      m = listMean (scoresOf g (winner_analysis data))) ∧
    (∃ m, (w, m) ∈ avg_scores (winner_analysis data) ∧
      ∀ p ∈ avg_scores (winner_analysis data), m ≤ p.2) ∧
    (∀ g, winsOf (winner_analysis data) g =
      ((winner_analysis data).map fun e => e.2.1.1).count g) := by
  refine ⟨fun g m hm => mem_avg_scores _ g m hm, ?_, ?_⟩
  · unfold overall_winner at h
    cases hpm : pyMinKey (avg_scores (winner_analysis data)) with
    | none => rw [hpm] at h; exact absurd h (by simp)
    | some ws =>
      rw [hpm] at h
      have hw : ws.1 = w := Option.some.inj h
      obtain ⟨l1, l2, heq, hlt, hle⟩ := pyMinKey_split _ ws.1 ws.2 hpm
      refine ⟨ws.2, ?_, ?_⟩
      · rw [← hw, heq]
        exact List.mem_append_right _ (List.mem_cons_self _ _)
      · intro p hp
        rw [heq] at hp
        rcases List.mem_append.mp hp with hp | hp
        · exact le_of_lt (hlt p hp)
        · rcases List.mem_cons.mp hp with hp | hp
          · rw [hp]
          · exact hle p hp
  · intro g
    unfold winsOf
    simp only [List.count, List.countP_eq_length_filter, List.filter_map, List.length_map]
    rfl

/-- C7 witness: the overall winner of the two-scenario demonstration data
    attains the minimal mean score. -/
theorem C7_witness :
    ∃ m, ("zgc", m) ∈ avg_scores (winner_analysis demoData) ∧
      ∀ p ∈ avg_scores (winner_analysis demoData), m ≤ p.2 :=
  (C7_overall_winner demoData "zgc" (by
    norm_num +decide [overall_winner, demoData, avg_scores, overall_scores, winner_analysis,
      pyMinKey, scenario_scores, minPairAux, addScore, score_val, percentile, sortedQ,
      listMax, listMean, List.insertionSort, List.orderedInsert, List.filterMap,
      List.foldl])).2.1

/-- C2: the claim is the spec's intent, the code misses part of it: when
    every log file exists but no pause event exists anywhere, the script
    passes the all_frames guard and reaches min over the empty avg_scores
    dictionary, raising ValueError instead of reporting insufficient data;
    the explicit "No logs found" exit covers only the case where no log
    file exists at all. -/
theorem C2_empty_logs_eval :
    runAnalysis emptyLogsData = AnalysisOutcome.valueError ∧
    runAnalysis missingLogsData = AnalysisOutcome.noLogs := by
  constructor
  · norm_num +decide [runAnalysis, emptyLogsData, overall_winner, avg_scores, overall_scores,
      winner_analysis, pyMinKey, scenario_scores, List.filterMap, List.foldl, List.all]
  · norm_num [runAnalysis, missingLogsData, List.all]
